import Mathlib

/-!
Verification of the computation/conversion helpers of pyhelpers/ops/comp.py
(gps_time_to_utc, parse_size, get_number_of_chunks, get_extreme_outlier_bounds,
interquartile_range, find_closest_date).

Embedding conventions:
* Python numbers (int and float) are modelled as exact rationals; machine
  floating point is idealised as exact arithmetic on the decimal values that
  appear in the program, and the decimal rendering and rounding of CPython
  (round-half-even) is modelled exactly over the rationals.
* Python strings are modelled as Lean strings; str.split(), float(), the
  f-string fixed-point format and strftime are modelled character by character
  over the underlying character lists.
* Exceptions (ValueError from unpacking or float(), IndexError and KeyError,
  both subclasses of LookupError, from list indexing and dict lookup) are
  modelled with an Except result; a raised error is an error value that
  propagates to the top of the function, which mirrors code that has no
  try/except at all.
-/

attribute [local semireducible] Rat.ofScientific Rat.mul Rat.add Rat.sub Rat.inv

namespace Pyhelpers

/-- Truncation toward zero: Python's int() applied to a float value. -/
def pyInt (q : ℚ) : ℤ := if 0 ≤ q then ⌊q⌋ else ⌈q⌉

/-- Round to the nearest integer with ties to even: the rounding used by
CPython's round(), by the fixed-point float format and by the microsecond
conversion in datetime.utcfromtimestamp. -/
def roundHalfEven (q : ℚ) : ℤ :=
  if q - ⌊q⌋ < 1/2 then ⌊q⌋
  else if 1/2 < q - ⌊q⌋ then ⌊q⌋ + 1
  else if ⌊q⌋ % 2 = 0 then ⌊q⌋ else ⌊q⌋ + 1

theorem roundHalfEven_nonneg (q : ℚ) (h : 0 ≤ q) : 0 ≤ roundHalfEven q := by
  have h0 : (0:ℤ) ≤ ⌊q⌋ := Int.floor_nonneg.mpr h
  unfold roundHalfEven
  split_ifs <;> omega

theorem abs_roundHalfEven_sub_le (q : ℚ) : |(roundHalfEven q : ℚ) - q| ≤ 1/2 := by
  have h0 : (⌊q⌋ : ℚ) ≤ q := Int.floor_le q
  have h1 : q < ⌊q⌋ + 1 := Int.lt_floor_add_one q
  unfold roundHalfEven
  split_ifs <;> rw [abs_le] <;> constructor <;> push_cast <;> linarith

theorem abs_pyInt_sub_lt (q : ℚ) : |(pyInt q : ℚ) - q| < 1 := by
  unfold pyInt
  split_ifs with h
  · have h0 : (⌊q⌋ : ℚ) ≤ q := Int.floor_le q
    have h1 : q < ⌊q⌋ + 1 := Int.lt_floor_add_one q
    rw [abs_lt]; constructor <;> linarith
  · have h0 : q ≤ (⌈q⌉ : ℚ) := Int.le_ceil q
    have h1 : (⌈q⌉ : ℚ) < q + 1 := Int.ceil_lt_add_one q
    rw [abs_lt]; constructor <;> linarith

/-- The ten decimal digit characters. -/
def digitChars : List Char := ['0', '1', '2', '3', '4', '5', '6', '7', '8', '9']

/-- Numeric value of one decimal digit character. -/
def charVal (c : Char) : ℕ := c.toNat - 48

/-- Numeric value of a string of decimal digit characters. -/
def digitsVal (l : List Char) : ℕ := l.foldl (fun a c => 10 * a + charVal c) 0

/-- Decimal digits of a natural number, most significant first (fuel-driven so
that it reduces in the kernel). -/
def natToCharsAux : ℕ → ℕ → List Char
  | 0, _ => []
  | fuel + 1, n =>
    if n < 10 then [Nat.digitChar n]
    else natToCharsAux fuel (n / 10) ++ [Nat.digitChar (n % 10)]

/-- Decimal digits of a natural number, most significant first. -/
def natToChars (n : ℕ) : List Char := natToCharsAux (n + 1) n

/-- Digits of n, left padded with zeros to width p. -/
def padZeros (p : ℕ) (n : ℕ) : List Char :=
  List.replicate (p - (natToChars n).length) '0' ++ natToChars n

theorem digitsVal_foldl_init (l : List Char) :
    ∀ a : ℕ, l.foldl (fun a c => 10 * a + charVal c) a = a * 10 ^ l.length + digitsVal l := by
  induction l with
  | nil => intro a; simp [digitsVal]
  | cons c t ih =>
      intro a
      have h1 := ih (10 * a + charVal c)
      have h2 := ih (charVal c)
      simp only [List.foldl_cons, List.length_cons, digitsVal, Nat.mul_zero,
        Nat.zero_add] at h1 h2 ⊢
      rw [h1, h2]
      ring

theorem digitsVal_append (l r : List Char) :
    digitsVal (l ++ r) = digitsVal l * 10 ^ r.length + digitsVal r := by
  unfold digitsVal
  rw [List.foldl_append]
  exact digitsVal_foldl_init r _

theorem digitsVal_replicate_zero (k : ℕ) (l : List Char) :
    digitsVal (List.replicate k '0' ++ l) = digitsVal l := by
  induction k with
  | zero => simp
  | succ n ih =>
      rw [List.replicate_succ]
      simpa [digitsVal, charVal] using ih

theorem digitChar_mem : ∀ n, n < 10 → Nat.digitChar n ∈ digitChars := by decide

theorem digitChar_val : ∀ n, n < 10 → charVal (Nat.digitChar n) = n := by decide

theorem natToCharsAux_mem :
    ∀ fuel n, n < fuel → ∀ c ∈ natToCharsAux fuel n, c ∈ digitChars := by
  intro fuel
  induction fuel with
  | zero => intro n h; omega
  | succ f ih =>
      intro n hn c hc
      unfold natToCharsAux at hc
      by_cases h10 : n < 10
      · rw [if_pos h10] at hc
        rcases List.mem_singleton.mp hc with rfl
        exact digitChar_mem n h10
      · rw [if_neg h10] at hc
        rcases List.mem_append.mp hc with h | h
        · have hdiv : n / 10 < f := by
            have : n / 10 < n := Nat.div_lt_self (by omega) (by omega)
            omega
          exact ih (n / 10) hdiv c h
        · rcases List.mem_singleton.mp h with rfl
          exact digitChar_mem _ (Nat.mod_lt n (by omega))

theorem natToChars_mem (n : ℕ) : ∀ c ∈ natToChars n, c ∈ digitChars :=
  natToCharsAux_mem (n + 1) n (Nat.lt_succ_self n)

theorem natToCharsAux_val :
    ∀ fuel n, n < fuel → digitsVal (natToCharsAux fuel n) = n := by
  intro fuel
  induction fuel with
  | zero => intro n h; omega
  | succ f ih =>
      intro n hn
      unfold natToCharsAux
      by_cases h10 : n < 10
      · rw [if_pos h10]
        simpa [digitsVal] using digitChar_val n h10
      · rw [if_neg h10]
        have hdiv : n / 10 < f := by
          have : n / 10 < n := Nat.div_lt_self (by omega) (by omega)
          omega
        rw [digitsVal_append, ih (n / 10) hdiv]
        have hm : charVal (Nat.digitChar (n % 10)) = n % 10 :=
          digitChar_val _ (Nat.mod_lt n (by omega))
        simp only [List.length_singleton, pow_one, digitsVal, List.foldl_cons,
          List.foldl_nil, Nat.mul_zero, Nat.zero_add, hm]
        omega

theorem natToChars_val (n : ℕ) : digitsVal (natToChars n) = n :=
  natToCharsAux_val (n + 1) n (Nat.lt_succ_self n)

theorem natToCharsAux_ne_nil :
    ∀ fuel n, n < fuel → natToCharsAux fuel n ≠ [] := by
  intro fuel
  induction fuel with
  | zero => intro n h; omega
  | succ f _ =>
      intro n _
      unfold natToCharsAux
      by_cases h10 : n < 10
      · rw [if_pos h10]; simp
      · rw [if_neg h10]; simp

theorem natToChars_ne_nil (n : ℕ) : natToChars n ≠ [] :=
  natToCharsAux_ne_nil (n + 1) n (Nat.lt_succ_self n)

theorem natToCharsAux_length_le :
    ∀ fuel n p, n < fuel → n < 10 ^ p → 1 ≤ p → (natToCharsAux fuel n).length ≤ p := by
  intro fuel
  induction fuel with
  | zero => intro n p h; omega
  | succ f ih =>
      intro n p hn hp hp1
      unfold natToCharsAux
      by_cases h10 : n < 10
      · rw [if_pos h10]; simpa using hp1
      · rw [if_neg h10]
        have hdiv : n / 10 < f := by
          have : n / 10 < n := Nat.div_lt_self (by omega) (by omega)
          omega
        have hp2 : 2 ≤ p := by
          by_contra hcon
          interval_cases p <;> omega
        have hdivp : n / 10 < 10 ^ (p - 1) := by
          have h1 : n < 10 ^ (p - 1) * 10 := by
            have : 10 ^ (p - 1) * 10 = 10 ^ p := by
              rw [← pow_succ]
              congr 1
              omega
            omega
          omega
        have := ih (n / 10) (p - 1) hdiv hdivp (by omega)
        rw [List.length_append, List.length_singleton]
        omega

theorem natToChars_length_le (n p : ℕ) (h : n < 10 ^ p) (hp : 1 ≤ p) :
    (natToChars n).length ≤ p :=
  natToCharsAux_length_le (n + 1) n p (Nat.lt_succ_self n) h hp

theorem padZeros_length (p n : ℕ) (h : n < 10 ^ p) (hp : 1 ≤ p) :
    (padZeros p n).length = p := by
  unfold padZeros
  rw [List.length_append, List.length_replicate]
  have := natToChars_length_le n p h hp
  omega

theorem padZeros_val (p n : ℕ) : digitsVal (padZeros p n) = n := by
  unfold padZeros
  rw [digitsVal_replicate_zero, natToChars_val]

theorem padZeros_mem (p n : ℕ) : ∀ c ∈ padZeros p n, c ∈ digitChars := by
  intro c hc
  rcases List.mem_append.mp hc with h | h
  · rcases List.eq_of_mem_replicate h with rfl
    decide
  · exact natToChars_mem n c h

theorem digitChars_not_ws : ∀ c ∈ digitChars, c.isWhitespace = false := by decide

theorem digitChars_isDigit : ∀ c ∈ digitChars, c.isDigit = true := by decide

theorem digitChars_ne_signs :
    ∀ c ∈ digitChars, (c == '-') = false ∧ (c == '+') = false := by decide

/-- Longest digit run at the front of a character list, with the rest. -/
def spanDigits : List Char → List Char × List Char
  | [] => ([], [])
  | c :: cs =>
    if c.isDigit then (c :: (spanDigits cs).1, (spanDigits cs).2)
    else ([], c :: cs)

theorem spanDigits_append (l r : List Char) (hl : ∀ c ∈ l, c ∈ digitChars)
    (hr : ∀ x, r.head? = some x → x.isDigit = false) :
    spanDigits (l ++ r) = (l, r) := by
  induction l with
  | nil =>
      match r with
      | [] => rfl
      | c :: cs =>
          have hc : c.isDigit = false := hr c (by rw [List.head?_cons])
          show spanDigits (c :: cs) = ([], c :: cs)
          unfold spanDigits
          rw [if_neg (by simp [hc])]
  | cons c t ih =>
      have hc : c.isDigit = true := digitChars_isDigit c (hl c (by simp))
      show spanDigits (c :: (t ++ r)) = (c :: t, r)
      unfold spanDigits
      rw [if_pos hc, ih (fun x hx => hl x (by simp [hx]))]

/-- Leading run of non-whitespace characters, and the rest. -/
def takeTok : List Char → List Char × List Char
  | [] => ([], [])
  | c :: cs =>
    if c.isWhitespace then ([], c :: cs)
    else (c :: (takeTok cs).1, (takeTok cs).2)

theorem takeTok_append (l r : List Char) (hl : ∀ c ∈ l, c.isWhitespace = false)
    (hr : ∀ x, r.head? = some x → x.isWhitespace = true) :
    takeTok (l ++ r) = (l, r) := by
  induction l with
  | nil =>
      match r with
      | [] => rfl
      | c :: cs =>
          have hc : c.isWhitespace = true := hr c (by rw [List.head?_cons])
          show takeTok (c :: cs) = ([], c :: cs)
          unfold takeTok
          rw [if_pos hc]
  | cons c t ih =>
      have hc : c.isWhitespace = false := hl c (by simp)
      show takeTok (c :: (t ++ r)) = (c :: t, r)
      unfold takeTok
      rw [if_neg (by simp [hc]), ih (fun x hx => hl x (by simp [hx]))]

/-- Python's str.split() with no argument: split on runs of whitespace,
dropping empty pieces (fuel-driven so that it reduces in the kernel). -/
def wsSplitAux : ℕ → List Char → List (List Char)
  | 0, _ => []
  | _ + 1, [] => []
  | fuel + 1, c :: cs =>
    if c.isWhitespace then wsSplitAux fuel cs
    else (c :: (takeTok cs).1) :: wsSplitAux fuel (takeTok cs).2

/-- Python's str.split() with no argument, over a character list. -/
def wsSplit (l : List Char) : List (List Char) := wsSplitAux (l.length + 1) l

theorem takeTok_rest_length : ∀ l : List Char, (takeTok l).2.length ≤ l.length := by
  intro l
  induction l with
  | nil => simp [takeTok]
  | cons c t ih =>
      unfold takeTok
      by_cases h : c.isWhitespace
      · rw [if_pos h]
      · rw [if_neg h]
        simpa using Nat.le_succ_of_le ih

theorem wsSplitAux_nil (fuel : ℕ) : wsSplitAux fuel [] = [] := by
  cases fuel <;> rfl

theorem wsSplitAux_ws_cons (fuel : ℕ) (c : Char) (l : List Char)
    (hc : c.isWhitespace = true) :
    wsSplitAux (fuel + 1) (c :: l) = wsSplitAux fuel l := by
  show (if c.isWhitespace = true then wsSplitAux fuel l
    else (c :: (takeTok l).1) :: wsSplitAux fuel (takeTok l).2) = wsSplitAux fuel l
  rw [if_pos hc]

theorem wsSplitAux_tok_cons (fuel : ℕ) (c : Char) (l : List Char)
    (hc : c.isWhitespace = false) :
    wsSplitAux (fuel + 1) (c :: l) = (c :: (takeTok l).1) :: wsSplitAux fuel (takeTok l).2 := by
  show (if c.isWhitespace = true then wsSplitAux fuel l
    else (c :: (takeTok l).1) :: wsSplitAux fuel (takeTok l).2) = _
  rw [if_neg (by simp [hc])]

theorem wsSplitAux_single (fuel : ℕ) (b : List Char) (hb : b ≠ [])
    (hb' : ∀ c ∈ b, c.isWhitespace = false) (hfuel : b.length < fuel) :
    wsSplitAux fuel b = [b] := by
  match fuel, b with
  | 0, _ => omega
  | f + 1, [] => exact absurd rfl hb
  | f + 1, c :: cs =>
      have hc : c.isWhitespace = false := hb' c (by simp)
      have htk : takeTok (cs ++ []) = (cs, []) :=
        takeTok_append cs [] (fun x hx => hb' x (by simp [hx])) (fun x hx => by simp at hx)
      rw [List.append_nil] at htk
      rw [wsSplitAux_tok_cons f c cs hc, htk]
      simp [wsSplitAux_nil]

theorem wsSplit_pair (a b : List Char) (ha : a ≠ []) (hb : b ≠ [])
    (ha' : ∀ c ∈ a, c.isWhitespace = false) (hb' : ∀ c ∈ b, c.isWhitespace = false) :
    wsSplit (a ++ ' ' :: b) = [a, b] := by
  match a with
  | [] => exact absurd rfl ha
  | c :: t =>
      have hc : c.isWhitespace = false := ha' c (by simp)
      have htk : takeTok (t ++ ' ' :: b) = (t, ' ' :: b) :=
        takeTok_append t (' ' :: b) (fun x hx => ha' x (by simp [hx]))
          (fun x hx => by rw [List.head?_cons, Option.some.injEq] at hx; subst hx; decide)
      have hlen : (c :: t ++ ' ' :: b).length = t.length + b.length + 1 + 1 := by
        simp only [List.cons_append, List.length_cons, List.length_append]
        omega
      unfold wsSplit
      rw [hlen, List.cons_append, wsSplitAux_tok_cons _ c _ hc, htk,
        wsSplitAux_ws_cons _ ' ' b (by decide),
        wsSplitAux_single _ b hb hb' (by omega)]

/-- Magnitude of an exponent: digits that must consume the whole rest. -/
def parseExpMag (l : List Char) : Option ℕ :=
  if (spanDigits l).1 ≠ [] ∧ (spanDigits l).2 = [] then some (digitsVal (spanDigits l).1)
  else none

/-- Exponent digits with an optional sign, as the scale factor they denote. -/
def parseExpDigits : List Char → Option ℚ
  | '-' :: r => (parseExpMag r).map (fun e => 1 / 10 ^ e)
  | '+' :: r => (parseExpMag r).map (fun e => (10 : ℚ) ^ e)
  | l => (parseExpMag l).map (fun e => (10 : ℚ) ^ e)

/-- Tail of a float literal after the mantissa: either nothing or an
e/E exponent part. Returns the scale factor. -/
def parseExpTail : List Char → Option ℚ
  | [] => some 1
  | 'e' :: r => parseExpDigits r
  | 'E' :: r => parseExpDigits r
  | _ => none

/-- Parse an unsigned float literal (digits, an optional fractional part and
an optional exponent), as accepted by Python's float(). Underscore digit
grouping and the special values inf and nan are not used by this code and are
not modelled. -/
def parseUnsigned (l : List Char) : Option ℚ :=
  match (spanDigits l).2 with
  | '.' :: r2 =>
      if (spanDigits l).1 = [] ∧ (spanDigits r2).1 = [] then none
      else
        (parseExpTail (spanDigits r2).2).map (fun e =>
          ((digitsVal (spanDigits l).1 : ℚ) +
            (digitsVal (spanDigits r2).1 : ℚ) / 10 ^ (spanDigits r2).1.length) * e)
  | _ =>
      if (spanDigits l).1 = [] then none
      else (parseExpTail (spanDigits l).2).map (fun e => (digitsVal (spanDigits l).1 : ℚ) * e)

/-- Python's float() applied to a token: an optional sign and an unsigned
float literal. -/
def parseValChars : List Char → Option ℚ
  | [] => none
  | c :: cs =>
    if c == '-' then (parseUnsigned cs).map (fun q => -q)
    else if c == '+' then parseUnsigned cs
    else parseUnsigned (c :: cs)

/-- Fixed-point rendering of a nonnegative rational with a given number of
decimal places: CPython's format spec .Nf, which rounds half to even. -/
def renderFixedChars (q : ℚ) (precision : ℕ) : List Char :=
  if precision = 0 then natToChars (roundHalfEven (q * 10 ^ precision)).toNat
  else
    natToChars ((roundHalfEven (q * 10 ^ precision)).toNat / 10 ^ precision) ++
      '.' :: padZeros precision ((roundHalfEven (q * 10 ^ precision)).toNat % 10 ^ precision)

theorem spanDigits_all (l : List Char) (hl : ∀ c ∈ l, c ∈ digitChars) :
    spanDigits l = (l, []) := by
  have := spanDigits_append l [] hl (fun x hx => by simp at hx)
  rwa [List.append_nil] at this

theorem parseUnsigned_renderFixed (q : ℚ) (hq : 0 ≤ q) (p : ℕ) :
    parseUnsigned (renderFixedChars q p) =
      some ((roundHalfEven (q * 10 ^ p) : ℚ) / 10 ^ p) := by
  have hR0 : 0 ≤ roundHalfEven (q * 10 ^ p) :=
    roundHalfEven_nonneg _ (by positivity)
  set R : ℕ := (roundHalfEven (q * 10 ^ p)).toNat with hRdef
  have hRcast : ((R : ℤ) : ℚ) = ((roundHalfEven (q * 10 ^ p) : ℤ) : ℚ) := by
    rw [hRdef, Int.toNat_of_nonneg hR0]
  by_cases hp : p = 0
  · subst hp
    unfold renderFixedChars
    rw [if_pos rfl]
    unfold parseUnsigned
    rw [spanDigits_all _ (natToChars_mem R)]
    simp only [List.head?_nil]
    rw [if_neg (by simpa using natToChars_ne_nil R)]
    unfold parseExpTail
    simp only [Option.map_some]
    rw [natToChars_val]
    push_cast at hRcast ⊢
    rw [← hRcast]
    norm_num
  · have hp1 : 1 ≤ p := by omega
    have hBlt : R % 10 ^ p < 10 ^ p := Nat.mod_lt R (by positivity)
    unfold renderFixedChars
    rw [if_neg hp]
    unfold parseUnsigned
    rw [spanDigits_append (natToChars (R / 10 ^ p)) ('.' :: padZeros p (R % 10 ^ p))
      (natToChars_mem _)
      (fun x hx => by rw [List.head?_cons, Option.some.injEq] at hx; subst hx; decide)]
    simp only
    rw [spanDigits_all _ (padZeros_mem p (R % 10 ^ p))]
    rw [if_neg (by simp [natToChars_ne_nil])]
    unfold parseExpTail
    simp only [Option.map_some]
    rw [natToChars_val, padZeros_val, padZeros_length p _ hBlt hp1]
    have hdm : 10 ^ p * (R / 10 ^ p) + R % 10 ^ p = R := Nat.div_add_mod R (10 ^ p)
    have hdmq : (10 : ℚ) ^ p * ((R / 10 ^ p : ℕ) : ℚ) + ((R % 10 ^ p : ℕ) : ℚ) = (R : ℚ) := by
      exact_mod_cast congrArg (fun n : ℕ => (n : ℚ)) hdm
    push_cast at hRcast
    rw [← hRcast]
    have hpow : (0 : ℚ) < 10 ^ p := by positivity
    field_simp
    linarith

theorem renderFixedChars_head (q : ℚ) (p : ℕ) :
    ∃ c cs, renderFixedChars q p = c :: cs ∧ c ∈ digitChars := by
  unfold renderFixedChars
  by_cases hp : p = 0
  · rw [if_pos hp]
    obtain ⟨c, cs, hc⟩ := List.exists_cons_of_ne_nil (natToChars_ne_nil _)
    exact ⟨c, cs, hc, natToChars_mem _ c (hc ▸ List.mem_cons_self c cs)⟩
  · rw [if_neg hp]
    obtain ⟨c, cs, hc⟩ := List.exists_cons_of_ne_nil
      (natToChars_ne_nil ((roundHalfEven (q * 10 ^ p)).toNat / 10 ^ p))
    refine ⟨c, cs ++ '.' :: padZeros p _, by rw [hc]; rfl, ?_⟩
    exact natToChars_mem _ c (hc ▸ List.mem_cons_self c cs)

theorem parseValChars_renderFixed (q : ℚ) (hq : 0 ≤ q) (p : ℕ) :
    parseValChars (renderFixedChars q p) =
      some ((roundHalfEven (q * 10 ^ p) : ℚ) / 10 ^ p) := by
  obtain ⟨c, cs, hc, hcd⟩ := renderFixedChars_head q p
  rw [hc]
  simp only [parseValChars]
  rw [(digitChars_ne_signs c hcd).1, (digitChars_ne_signs c hcd).2]
  simp only [Bool.false_eq_true, if_false]
  rw [← hc]
  exact parseUnsigned_renderFixed q hq p

theorem parseValChars_neg_renderFixed (q : ℚ) (hq : 0 ≤ q) (p : ℕ) :
    parseValChars ('-' :: renderFixedChars q p) =
      some (-((roundHalfEven (q * 10 ^ p) : ℚ) / 10 ^ p)) := by
  simp only [parseValChars]
  rw [if_pos (show (('-' : Char) == '-') = true from rfl), parseUnsigned_renderFixed q hq p]
  rfl

theorem renderFixedChars_not_ws (q : ℚ) (p : ℕ) :
    ∀ c ∈ renderFixedChars q p, c.isWhitespace = false := by
  intro c hc
  unfold renderFixedChars at hc
  by_cases hp : p = 0
  · rw [if_pos hp] at hc
    exact digitChars_not_ws c (natToChars_mem _ c hc)
  · rw [if_neg hp] at hc
    rcases List.mem_append.mp hc with h | h
    · exact digitChars_not_ws c (natToChars_mem _ c h)
    · rcases List.mem_cons.mp h with rfl | h2
      · decide
      · exact digitChars_not_ws c (padZeros_mem _ _ c h2)

theorem renderFixedChars_ne_nil (q : ℚ) (p : ℕ) : renderFixedChars q p ≠ [] := by
  obtain ⟨c, cs, hc, _⟩ := renderFixedChars_head q p
  rw [hc]
  simp

/-- Errors raised by parse_size: ValueError (from tuple unpacking of
str.split() or from float()) and LookupError (IndexError from indexing the
empty filtered list, or KeyError from the unit dictionary; both are
subclasses of LookupError). Nothing in the module catches them, so the
function result is the raised error itself. -/
inductive PyErr
  | valueError
  | lookupError
deriving DecidableEq

/-- min_unit of parse_size. -/
def min_unit : String := "B"

/-- units_prefixes of parse_size. -/
def units_prefixes : List String := ["K", "M", "G", "T", "P", "E", "Z", "Y"]

/-- The binary units [x + 'i' + min_unit for x in units_prefixes]. -/
def binaryUnits : List String := units_prefixes.map (fun x => x ++ "i" ++ min_unit)

/-- The decimal units [x + min_unit for x in units_prefixes]. -/
def decimalUnits : List String := units_prefixes.map (fun x => x ++ min_unit)

/-- re.match(r'.*i[Bb]', sym) succeeds iff sym contains the two-character
sequence iB or ib somewhere (.* is unanchored at the right and greedy, so the
pattern succeeds exactly when some prefix of sym ends in i followed by B or b). -/
def hasIBChars : List Char → Bool
  | [] => false
  | [_] => false
  | a :: b :: rest => (a == 'i' && (b == 'B' || b == 'b')) || hasIBChars (b :: rest)

/-- Whether re.match(r'.*i[Bb]', sym) succeeds. -/
def hasIB (sym : String) : Bool := hasIBChars sym.data

/-- Python's size.split(): whitespace-separated tokens. The subsequent
x.strip() of the source is the identity on such tokens and needs no model. -/
def pySplit (s : String) : List String := (wsSplit s.data).map (fun t => String.mk t)

/-- The list comprehension [s for s in units if s[0] == sym[0].upper()],
given the uppercased first character of sym. -/
def matchedUnits (units : List String) (c : Char) : List String :=
  units.filter (fun u => u.data.headD ' ' == c)

/-- unit_dict = dict(zip(units, [factor ** i for i in range(1, len(units) + 1)])). -/
def unitDict (factor : ℚ) (units : List String) : List (String × ℚ) :=
  units.zip ((List.range units.length).map (fun i => factor ^ (i + 1)))

/-- The string branch of parse_size (size is a str): split into value and
symbol, detect a binary unit symbol, select the unit whose first letter
matches, look up its multiplier and truncate value times multiplier to an
integer number of bytes. -/
def parse_size_str (size : String) (binary : Bool) : Except PyErr ℤ :=
  match pySplit size with
  | [val, sym] =>
    let fu0 : ℚ × List String :=
      if binary then ((2 : ℚ) ^ 10, binaryUnits) else ((10 : ℚ) ^ 3, decimalUnits)
    let fu : ℚ × List String :=
      if hasIB sym then ((2 : ℚ) ^ 10, binaryUnits) else fu0
    match matchedUnits fu.2 ((sym.data.headD ' ').toUpper) with
    | [] => .error .lookupError
    | unit :: _ =>
      match List.lookup unit (unitDict fu.1 fu.2) with
      | none => .error .lookupError
      | some mult =>
        match parseValChars val.data with
        | none => .error .valueError
        | some v => .ok (pyInt (v * mult))
  | _ => .error .valueError

/-- The loop of the numeric branch of parse_size: over [min_unit] + units,
format as soon as the remaining magnitude is below the factor, and divide by
the factor unless the current unit is the last one. Returns none when the
loop falls through without formatting. -/
def formatLoop (factor : ℚ) (isNeg : Bool) (precision : ℕ) : ℚ → List String → Option String
  | _, [] => none
  | temp, unit :: rest =>
    if |temp| < factor then
      some (String.mk ((if isNeg then ['-'] else []) ++
        renderFixedChars temp precision ++ ' ' :: unit.data))
    else
      match rest with
      | [] => none
      | _ :: _ => formatLoop factor isNeg precision (temp / factor) rest

/-- The factor selected by the binary flag. -/
def pyFactor (binary : Bool) : ℚ := if binary then (2 : ℚ) ^ 10 else (10 : ℚ) ^ 3

/-- The unit list [min_unit] + units iterated by the numeric branch. -/
def allUnits (binary : Bool) : List String :=
  min_unit :: (if binary then binaryUnits else decimalUnits)

/-- The numeric branch of parse_size (size is an int or float): returns the
formatted human-readable string, or the input size itself unchanged when the
loop falls through without formatting. -/
def parse_size_num (size : ℚ) (binary : Bool) (precision : ℕ) : ℚ ⊕ String :=
  match formatLoop (pyFactor binary) (decide (size < 0)) precision |size| (allUnits binary) with
  | some s => .inr s
  | none => .inl size

/-- A Python value passed as the size argument of parse_size. -/
inductive PySize
  | str (s : String)
  | num (q : ℚ)

/-- parse_size itself: dispatch on isinstance(size, str). -/
def parse_size (size : PySize) (binary : Bool) (precision : ℕ) :
    Except PyErr (ℤ ⊕ (ℚ ⊕ String)) :=
  match size with
  | .str s => (parse_size_str s binary).map Sum.inl
  | .num q => .ok (Sum.inr (parse_size_num q binary precision))

deriving instance DecidableEq for Except

theorem formatLoop_spec (factor : ℚ) (hf : 1 < factor) (isNeg : Bool) (p : ℕ) :
    ∀ (k : ℕ) (us : List String) (temp : ℚ), 0 ≤ temp → k < us.length →
      (k = 0 ∨ factor ^ k ≤ temp) → temp < factor ^ (k + 1) →
      formatLoop factor isNeg p temp us =
        some (String.mk ((if isNeg then ['-'] else []) ++
          renderFixedChars (temp / factor ^ k) p ++ ' ' :: (us.getD k "").data)) := by
  intro k
  induction k with
  | zero =>
      intro us temp h0 hlen _ hhigh
      cases us with
      | nil => simp at hlen
      | cons u rest =>
          simp only [formatLoop]
          rw [if_pos (by rw [abs_of_nonneg h0]; rw [pow_one] at hhigh; exact hhigh)]
          rw [pow_zero, div_one]
          rfl
  | succ n ih =>
      intro us temp h0 hlen hlow hhigh
      cases us with
      | nil => simp at hlen
      | cons u rest =>
          have hf0 : (0 : ℚ) < factor := lt_trans zero_lt_one hf
          have hfl : factor ^ (n + 1) ≤ temp := hlow.resolve_left (by omega)
          have hnotlt : ¬ |temp| < factor := by
            rw [abs_of_nonneg h0]
            push_neg
            calc factor = factor ^ 1 := (pow_one factor).symm
              _ ≤ factor ^ (n + 1) := pow_le_pow_right₀ (le_of_lt hf) (by omega)
              _ ≤ temp := hfl
          simp only [formatLoop]
          rw [if_neg hnotlt]
          cases rest with
          | nil => simp at hlen
          | cons r rs =>
              have hrec := ih (r :: rs) (temp / factor)
                (div_nonneg h0 (le_of_lt hf0))
                (by simp at hlen ⊢; omega)
                (Or.inr (by rw [le_div_iff₀ hf0, ← pow_succ]; exact hfl))
                (by rw [div_lt_iff₀ hf0, ← pow_succ]; exact hhigh)
              rw [hrec, div_div, ← pow_succ']
              rfl

theorem formatLoop_none (factor : ℚ) (hf : 1 < factor) (isNeg : Bool) (p : ℕ) :
    ∀ (us : List String) (temp : ℚ), 0 ≤ temp → factor ^ us.length ≤ temp →
      formatLoop factor isNeg p temp us = none := by
  intro us
  induction us with
  | nil => intro temp _ _; rfl
  | cons u rest ih =>
      intro temp h0 hge
      have hf0 : (0 : ℚ) < factor := lt_trans zero_lt_one hf
      have hge1 : factor ≤ temp :=
        le_trans (by calc factor = factor ^ 1 := (pow_one factor).symm
          _ ≤ factor ^ (u :: rest).length :=
            pow_le_pow_right₀ (le_of_lt hf) (by simp)) hge
      simp only [formatLoop]
      rw [if_neg (by rw [abs_of_nonneg h0]; push_neg; exact hge1)]
      cases rest with
      | nil => rfl
      | cons r rs =>
          apply ih (temp / factor) (div_nonneg h0 (le_of_lt hf0))
          rw [le_div_iff₀ hf0, ← pow_succ]
          simpa using hge

theorem pyFactor_gt_one (b : Bool) : 1 < pyFactor b := by
  cases b <;> norm_num [pyFactor]

theorem allUnits_length (b : Bool) : (allUnits b).length = 9 := by
  cases b <;> rfl

/-- parse_size on a numeric value at least factor to the ninth power returns
the input unchanged: the loop runs out of units without formatting. -/
theorem parse_size_num_overflow (size : ℚ) (b : Bool) (p : ℕ)
    (h : pyFactor b ^ 9 ≤ |size|) :
    parse_size_num size b p = .inl size := by
  unfold parse_size_num
  rw [formatLoop_none (pyFactor b) (pyFactor_gt_one b) _ p (allUnits b) |size|
    (abs_nonneg size) (by rw [allUnits_length]; exact h)]

/-- Python's round(x, 1): round half to even at one decimal place. -/
def pyRound1 (x : ℚ) : ℚ := (roundHalfEven (x * 10) : ℚ) / 10

/-- get_number_of_chunks, parametrised by the size in bytes that the function
determines (os.path.getsize for an existing path, sys.getsizeof for any other
object; the filesystem or interpreter query itself is outside the model).
The limit is an optional number; Python's truthiness test sends both None and
a zero limit to the None result. -/
def get_number_of_chunks (sizeBytes : ℕ) (chunk_size_limit : Option ℚ) (binary : Bool) :
    Option ℤ :=
  let factor : ℚ := if binary then (2 : ℚ) ^ 10 else (10 : ℚ) ^ 3
  let file_size_in_mb : ℚ := pyRound1 ((sizeBytes : ℚ) / factor ^ 2)
  match chunk_size_limit with
  | some limit =>
      if limit ≠ 0 then
        if file_size_in_mb > limit then some ⌈file_size_in_mb / limit⌉
        else some 1
      else none
  | none => none

/-- numpy.percentile with its default linear interpolation: sort the data,
take the fractional position (n - 1) * q / 100 and interpolate linearly
between the two neighbouring order statistics. -/
def percentile (dat : List ℚ) (q : ℚ) : ℚ :=
  let s := dat.insertionSort (· ≤ ·)
  let pos : ℚ := ((s.length : ℚ) - 1) * q / 100
  let i : ℕ := (⌊pos⌋).toNat
  let g : ℚ := pos - (⌊pos⌋ : ℚ)
  match s[i]?, s[i + 1]? with
  | some a, some b => a + g * (b - a)
  | some a, none => a
  | _, _ => 0

/-- get_extreme_outlier_bounds. -/
def get_extreme_outlier_bounds (num_dat : List ℚ) (k : ℚ) : ℚ × ℚ :=
  let q1 := percentile num_dat 25
  let q3 := percentile num_dat 75
  let iqr := q3 - q1
  (max 0 (q1 - k * iqr), q3 + k * iqr)

/-- interquartile_range: np.subtract(*np.percentile(num_dat, [75, 25])). -/
def interquartile_range (num_dat : List ℚ) : ℚ :=
  percentile num_dat 75 - percentile num_dat 25

/-- A datetime.datetime value (timezone-naive, as used by this module). -/
structure PyDateTime where
  year : ℤ
  month : ℕ
  day : ℕ
  hour : ℕ
  minute : ℕ
  second : ℕ
  microsecond : ℕ
deriving DecidableEq

/-- Days from the proleptic Gregorian civil date to 1970-01-01 (the standard
days-from-civil algorithm; datetime.date arithmetic shifted to the Unix
epoch). -/
def daysFromCivil (y : ℤ) (m d : ℕ) : ℤ :=
  let y2 : ℤ := if m ≤ 2 then y - 1 else y
  let era : ℤ := (if 0 ≤ y2 then y2 else y2 - 399) / 400
  let yoe : ℤ := y2 - era * 400
  let doy : ℤ := (153 * (if 2 < m then (m : ℤ) - 3 else (m : ℤ) + 9) + 2) / 5 + d - 1
  let doe : ℤ := yoe * 365 + yoe / 4 - yoe / 100 + doy
  era * 146097 + doe - 719468

/-- Civil date from days since 1970-01-01 (the standard civil-from-days
algorithm). -/
def civilFromDays (z0 : ℤ) : ℤ × ℕ × ℕ :=
  let z : ℤ := z0 + 719468
  let era : ℤ := (if 0 ≤ z then z else z - 146096) / 146097
  let doe : ℤ := z - era * 146097
  let yoe : ℤ := (doe - doe / 1460 + doe / 36524 - doe / 146096) / 365
  let y : ℤ := yoe + era * 400
  let doy : ℤ := doe - (365 * yoe + yoe / 4 - yoe / 100)
  let mp : ℤ := (5 * doy + 2) / 153
  let d : ℤ := doy - (153 * mp + 2) / 5 + 1
  let m : ℤ := if mp < 10 then mp + 3 else mp - 9
  (if m ≤ 2 then y + 1 else y, m.toNat, d.toNat)

/-- datetime.datetime.utcfromtimestamp on a nonnegative float timestamp:
split off the whole seconds, round the fractional part to microseconds half
to even with a carry, and convert the whole seconds to a civil date and
clock time. -/
def utcFromTimestamp (t : ℚ) : PyDateTime :=
  let sec0 : ℤ := ⌊t⌋
  let us0 : ℤ := roundHalfEven ((t - (sec0 : ℚ)) * 1000000)
  let sec : ℤ := if 1000000 ≤ us0 then sec0 + 1 else sec0
  let us : ℤ := if 1000000 ≤ us0 then us0 - 1000000 else us0
  let days : ℤ := sec / 86400
  let rem : ℕ := (sec % 86400).toNat
  ⟨(civilFromDays days).1, (civilFromDays days).2.1, (civilFromDays days).2.2,
    rem / 3600, rem % 3600 / 60, rem % 60, us.toNat⟩

/-- gps_from_utc = (datetime(1980, 1, 6) - datetime(1970, 1, 1)).total_seconds(). -/
def gps_from_utc : ℚ := (((daysFromCivil 1980 1 6 - daysFromCivil 1970 1 1) * 86400 : ℤ) : ℚ)

/-- gps_time_to_utc: add the epoch offset and convert as a Unix timestamp. -/
def gps_time_to_utc (gps_time : ℚ) : PyDateTime :=
  utcFromTimestamp (gps_time + gps_from_utc)

/-- A date value accepted by find_closest_date: a string or a datetime. -/
inductive DateVal
  | str (s : String)
  | dt (d : PyDateTime)
deriving DecidableEq

/-- Digits right-padded with zeros to width p, for fractional seconds. -/
def padRightZeros (p : ℕ) (l : List Char) : List Char :=
  l ++ List.replicate (p - l.length) '0'

/-- Clock-time part of an ISO datetime string: HH:MM:SS with an optional
fractional-second part, as hour, minute, second and microsecond. -/
def parseTimeChars (l : List Char) : Option (ℕ × ℕ × ℕ × ℕ) :=
  match spanDigits l with
  | (hd, ':' :: r1) =>
    match spanDigits r1 with
    | (mind, ':' :: r2) =>
      match spanDigits r2 with
      | (sd, []) =>
          if hd = [] ∨ mind = [] ∨ sd = [] then none
          else some (digitsVal hd, digitsVal mind, digitsVal sd, 0)
      | (sd, '.' :: r3) =>
          match spanDigits r3 with
          | (usd, []) =>
              if hd = [] ∨ mind = [] ∨ sd = [] ∨ usd = [] then none
              else some (digitsVal hd, digitsVal mind, digitsVal sd,
                digitsVal (padRightZeros 6 usd))
          | _ => none
      | _ => none
    | _ => none
  | _ => none

/-- pandas.to_datetime on an ISO-format string YYYY-MM-DD, optionally
followed by a space and a clock time. The many further formats pandas
accepts are not used by this module and are not modelled. -/
def parseDateChars (l : List Char) : Option PyDateTime :=
  match spanDigits l with
  | (yd, '-' :: r1) =>
    match spanDigits r1 with
    | (md, '-' :: r2) =>
      match spanDigits r2 with
      | (dd, rest) =>
          if yd = [] ∨ md = [] ∨ dd = [] then none
          else
            match rest with
            | [] => some ⟨digitsVal yd, digitsVal md, digitsVal dd, 0, 0, 0, 0⟩
            | ' ' :: r3 =>
                (parseTimeChars r3).map (fun t =>
                  ⟨digitsVal yd, digitsVal md, digitsVal dd, t.1, t.2.1, t.2.2.1, t.2.2.2⟩)
            | _ => none
    | _ => none
  | _ => none

/-- pandas.to_datetime on a string or datetime value. -/
def pdToDatetime : DateVal → Option PyDateTime
  | .str s => parseDateChars s.data
  | .dt d => some d

/-- Microseconds from the Unix epoch: the linear timeline on which datetime
differences (and their absolute values) are taken. -/
def dtToMicros (d : PyDateTime) : ℤ :=
  (daysFromCivil d.year d.month d.day * 86400 +
    (d.hour : ℤ) * 3600 + (d.minute : ℤ) * 60 + (d.second : ℤ)) * 1000000 +
    (d.microsecond : ℤ)

/-- strftime with the default format of find_closest_date,
'%Y-%m-%d %H:%M:%S.%f' (the fmt parameter of the source is modelled at this,
its default value). -/
def strftimeDefault (d : PyDateTime) : String :=
  String.mk (padZeros 4 d.year.toNat ++ '-' :: padZeros 2 d.month ++ '-' :: padZeros 2 d.day ++
    ' ' :: padZeros 2 d.hour ++ ':' :: padZeros 2 d.minute ++ ':' :: padZeros 2 d.second ++
    '.' :: padZeros 6 d.microsecond)

/-- Keys |to_datetime(x) - to_datetime(date)| computed over the iterable;
none if some entry does not parse (in which case pandas raises). -/
def keyedDates (target : PyDateTime) : List DateVal → Option (List (DateVal × ℤ))
  | [] => some []
  | x :: xs =>
    match pdToDatetime x, keyedDates target xs with
    | some dx, some ys => some ((x, |dtToMicros dx - dtToMicros target|) :: ys)
    | _, _ => none

/-- Python's min over a nonempty sequence with a key function: the first
element whose key is minimal. -/
def minByKey (x : DateVal × ℤ) (xs : List (DateVal × ℤ)) : DateVal × ℤ :=
  xs.foldl (fun b y => if y.2 < b.2 then y else b) x

/-- find_closest_date: the candidate minimising the absolute time difference
to the target, converted to a datetime (as_datetime) or to a string
otherwise; none models the min() or to_datetime call raising. -/
def find_closest_date (date : DateVal) (lookup_dates : List DateVal)
    (as_datetime : Bool) : Option DateVal :=
  match pdToDatetime date with
  | none => none
  | some target =>
    match keyedDates target lookup_dates with
    | none => none
    | some [] => none
    | some (p :: ps) =>
      let closest := (minByKey p ps).1
      if as_datetime then
        match closest with
        | .str s => (parseDateChars s.data).map DateVal.dt
        | .dt d => some (.dt d)
      else
        match closest with
        | .dt d => some (.str (strftimeDefault d))
        | .str s => some (.str s)

/-- Gregorian leap year, as followed by pandas timestamps. -/
def isLeap (y : ℤ) : Bool := (y % 4 == 0 && y % 100 != 0) || y % 400 == 0

/-- Number of days of a month of the Gregorian calendar. -/
def daysInMonth (y : ℤ) (m : ℕ) : ℕ :=
  if m = 2 then (if isLeap y then 29 else 28)
  else if m = 4 ∨ m = 6 ∨ m = 9 ∨ m = 11 then 30
  else 31

/-- The next civil day at the same clock time: the daily step that
pandas.date_range takes. -/
def nextDay (d : PyDateTime) : PyDateTime :=
  if d.day < daysInMonth d.year d.month then
    ⟨d.year, d.month, d.day + 1, d.hour, d.minute, d.second, d.microsecond⟩
  else if d.month < 12 then
    ⟨d.year, d.month + 1, 1, d.hour, d.minute, d.second, d.microsecond⟩
  else
    ⟨d.year + 1, 1, 1, d.hour, d.minute, d.second, d.microsecond⟩

/-- pandas.date_range from a start timestamp with a number of daily periods. -/
def pdDateRange (start : PyDateTime) : ℕ → List PyDateTime
  | 0 => []
  | n + 1 => start :: pdDateRange (nextDay start) n

/-- pandas.date_range('2019-01-02', '2019-12-31'): the 364 consecutive daily
timestamps from 2019-01-02 up to and including 2019-12-31. -/
def dateRange2019 : List DateVal :=
  (pdDateRange ⟨2019, 1, 2, 0, 0, 0, 0⟩ 364).map DateVal.dt

/-- A civil-valid date with a positive year (datetime years run 1..9999). -/
def ValidDate (d : PyDateTime) : Prop :=
  1 ≤ d.year ∧ 1 ≤ d.month ∧ d.month ≤ 12 ∧ 1 ≤ d.day ∧ d.day ≤ daysInMonth d.year d.month

theorem daysInMonth_pos (y : ℤ) (m : ℕ) : 1 ≤ daysInMonth y m := by
  unfold daysInMonth
  split_ifs <;> omega

theorem nextDay_valid (d : PyDateTime) (h : ValidDate d) : ValidDate (nextDay d) := by
  obtain ⟨h1, h2, h3, h4, h5⟩ := h
  have hp1 := daysInMonth_pos d.year (d.month + 1)
  have hp2 := daysInMonth_pos (d.year + 1) 1
  unfold ValidDate nextDay
  split_ifs with ha hb <;> dsimp only <;> refine ⟨?_, ?_, ?_, ?_, ?_⟩ <;> omega

set_option maxHeartbeats 1000000 in
theorem step_same_month (y : ℤ) (hy0 : 1 ≤ y) (m d : ℕ) (hm1 : 1 ≤ m) (hm2 : m ≤ 12)
    (hd2 : d < daysInMonth y m) :
    daysFromCivil y m (d + 1) = daysFromCivil y m d + 1 := by
  unfold daysFromCivil
  simp only
  split_ifs <;> push_cast <;> omega

theorem step_feb (y : ℤ) (hy0 : 1 ≤ y) :
    daysFromCivil y 3 1 = daysFromCivil y 2 (daysInMonth y 2) + 1 := by
  by_cases hy : isLeap y = true
  · have hy2 : y % 4 = 0 ∧ y % 100 ≠ 0 ∨ y % 400 = 0 := by
      simpa [isLeap, Bool.or_eq_true, Bool.and_eq_true, beq_iff_eq, bne_iff_ne] using hy
    have h29 : daysInMonth y 2 = 29 := by
      unfold daysInMonth
      norm_num [hy]
    rw [h29]
    unfold daysFromCivil
    split_ifs <;> push_cast <;> omega
  · have hy2 : ¬(y % 4 = 0 ∧ y % 100 ≠ 0 ∨ y % 400 = 0) := by
      simpa [isLeap, Bool.or_eq_true, Bool.and_eq_true, beq_iff_eq, bne_iff_ne] using hy
    have h28 : daysInMonth y 2 = 28 := by
      unfold daysInMonth
      norm_num [hy]
    rw [h28]
    unfold daysFromCivil
    split_ifs <;> push_cast <;> omega

set_option maxHeartbeats 1000000 in
theorem step_month_end (y : ℤ) (hy0 : 1 ≤ y) (m : ℕ) (hm1 : 1 ≤ m) (hm2 : m ≤ 11) :
    daysFromCivil y (m + 1) 1 = daysFromCivil y m (daysInMonth y m) + 1 := by
  interval_cases m <;>
    first
      | exact step_feb y hy0
      | (unfold daysFromCivil daysInMonth
         norm_num
         split_ifs <;> push_cast <;> omega)

set_option maxHeartbeats 1000000 in
theorem step_year_end (y : ℤ) (hy0 : 1 ≤ y) :
    daysFromCivil (y + 1) 1 1 = daysFromCivil y 12 31 + 1 := by
  unfold daysFromCivil
  simp only
  split_ifs <;> push_cast <;> omega

theorem daysFromCivil_nextDay (d : PyDateTime) (h : ValidDate d) :
    daysFromCivil (nextDay d).year (nextDay d).month (nextDay d).day =
      daysFromCivil d.year d.month d.day + 1 := by
  obtain ⟨h1, h2, h3, h4, h5⟩ := h
  unfold nextDay
  split_ifs with ha hb
  · exact step_same_month d.year h1 d.month d.day h2 h3 ha
  · have hdm : d.day = daysInMonth d.year d.month := by omega
    rw [hdm]
    exact step_month_end d.year h1 d.month h2 (by omega)
  · have hm12 : d.month = 12 := by omega
    have h31 : daysInMonth d.year 12 = 31 := by
      unfold daysInMonth
      norm_num
    have hd31 : d.day = 31 := by
      rw [hm12] at ha h5
      rw [h31] at ha h5
      omega
    rw [hm12, hd31]
    exact step_year_end d.year h1

theorem nextDay_time (d : PyDateTime) :
    (nextDay d).hour = d.hour ∧ (nextDay d).minute = d.minute ∧
    (nextDay d).second = d.second ∧ (nextDay d).microsecond = d.microsecond := by
  unfold nextDay
  split_ifs <;> exact ⟨rfl, rfl, rfl, rfl⟩

theorem dtToMicros_nextDay (d : PyDateTime) (h : ValidDate d) :
    dtToMicros (nextDay d) = dtToMicros d + 86400000000 := by
  obtain ⟨e1, e2, e3, e4⟩ := nextDay_time d
  unfold dtToMicros
  rw [daysFromCivil_nextDay d h, e1, e2, e3, e4]
  ring

theorem pdDateRange_lower (n : ℕ) :
    ∀ d : PyDateTime, ValidDate d → ∀ x ∈ pdDateRange d n, dtToMicros d ≤ dtToMicros x := by
  induction n with
  | zero => intro d _ x hx; simp [pdDateRange] at hx
  | succ m ih =>
      intro d hd x hx
      rcases List.mem_cons.mp hx with rfl | hx2
      · exact le_refl _
      · have hstep := dtToMicros_nextDay d hd
        have := ih (nextDay d) (nextDay_valid d hd) x hx2
        omega

theorem keyedDates_map_dt (t : PyDateTime) (l : List PyDateTime) :
    keyedDates t (l.map DateVal.dt) =
      some (l.map (fun d => (DateVal.dt d, |dtToMicros d - dtToMicros t|))) := by
  induction l with
  | nil => rfl
  | cons d ds ih => simp only [List.map_cons, keyedDates, pdToDatetime, ih]

theorem minByKey_first (p : DateVal × ℤ) (ps : List (DateVal × ℤ))
    (h : ∀ y ∈ ps, p.2 ≤ y.2) : minByKey p ps = p := by
  induction ps with
  | nil => rfl
  | cons y ys ih =>
      unfold minByKey at ih ⊢
      rw [List.foldl_cons, if_neg (not_lt.mpr (h y (by simp)))]
      exact ih (fun z hz => h z (by simp [hz]))

theorem minByKey_mem (ps : List (DateVal × ℤ)) :
    ∀ p : DateVal × ℤ, minByKey p ps ∈ p :: ps := by
  induction ps with
  | nil => intro p; simp [minByKey]
  | cons y ys ih =>
      intro p
      unfold minByKey at ih ⊢
      rw [List.foldl_cons]
      by_cases hlt : y.2 < p.2
      · rw [if_pos hlt]
        have h := ih y
        simp only [List.mem_cons] at h ⊢
        tauto
      · rw [if_neg hlt]
        have h := ih p
        simp only [List.mem_cons] at h ⊢
        tauto

theorem minByKey_le (ps : List (DateVal × ℤ)) :
    ∀ p : DateVal × ℤ, ∀ z ∈ p :: ps, (minByKey p ps).2 ≤ z.2 := by
  induction ps with
  | nil =>
      intro p z hz
      rcases List.mem_cons.mp hz with rfl | hz2
      · simp [minByKey]
      · simp at hz2
  | cons y ys ih =>
      intro p z hz
      unfold minByKey at ih ⊢
      rw [List.foldl_cons]
      simp only [List.mem_cons] at hz
      by_cases hlt : y.2 < p.2
      · rw [if_pos hlt]
        rcases hz with h | h | hz3
        · rw [h]; exact le_trans (ih y y (by simp)) (le_of_lt hlt)
        · rw [h]; exact ih y y (by simp)
        · exact ih y z (by simp [hz3])
      · rw [if_neg hlt]
        rcases hz with h | h | hz3
        · rw [h]; exact ih p p (by simp)
        · rw [h]; exact le_trans (ih p p (by simp)) (not_lt.mp hlt)
        · exact ih p z (by simp [hz3])

theorem find_closest_example :
    find_closest_date (.str "2019-01-01") dateRange2019 false =
      some (.str "2019-01-02 00:00:00.000000") := by
  have htarget : pdToDatetime (.str "2019-01-01") = some ⟨2019, 1, 1, 0, 0, 0, 0⟩ := by decide
  have hvalid : ValidDate ⟨2019, 1, 2, 0, 0, 0, 0⟩ := by
    unfold ValidDate
    decide
  have hone : dtToMicros ⟨2019, 1, 2, 0, 0, 0, 0⟩ - dtToMicros ⟨2019, 1, 1, 0, 0, 0, 0⟩ =
      86400000000 := by decide
  have hcons : pdDateRange ⟨2019, 1, 2, 0, 0, 0, 0⟩ 364 =
      ⟨2019, 1, 2, 0, 0, 0, 0⟩ :: pdDateRange (nextDay ⟨2019, 1, 2, 0, 0, 0, 0⟩) 363 := rfl
  have hkd := keyedDates_map_dt ⟨2019, 1, 1, 0, 0, 0, 0⟩
    (pdDateRange ⟨2019, 1, 2, 0, 0, 0, 0⟩ 364)
  rw [hcons, List.map_cons] at hkd
  have hmin : minByKey
      (DateVal.dt ⟨2019, 1, 2, 0, 0, 0, 0⟩,
        |dtToMicros ⟨2019, 1, 2, 0, 0, 0, 0⟩ - dtToMicros ⟨2019, 1, 1, 0, 0, 0, 0⟩|)
      ((pdDateRange (nextDay ⟨2019, 1, 2, 0, 0, 0, 0⟩) 363).map
        (fun d => (DateVal.dt d, |dtToMicros d - dtToMicros ⟨2019, 1, 1, 0, 0, 0, 0⟩|))) =
      (DateVal.dt ⟨2019, 1, 2, 0, 0, 0, 0⟩,
        |dtToMicros ⟨2019, 1, 2, 0, 0, 0, 0⟩ - dtToMicros ⟨2019, 1, 1, 0, 0, 0, 0⟩|) := by
    apply minByKey_first
    intro y hy
    rcases List.mem_map.mp hy with ⟨d, hd, rfl⟩
    have hlow := pdDateRange_lower 363 (nextDay ⟨2019, 1, 2, 0, 0, 0, 0⟩)
      (nextDay_valid _ hvalid) d hd
    have hstep := dtToMicros_nextDay ⟨2019, 1, 2, 0, 0, 0, 0⟩ hvalid
    have h2 : 86400000000 ≤ dtToMicros d - dtToMicros ⟨2019, 1, 1, 0, 0, 0, 0⟩ := by omega
    calc |dtToMicros ⟨2019, 1, 2, 0, 0, 0, 0⟩ - dtToMicros ⟨2019, 1, 1, 0, 0, 0, 0⟩|
        = 86400000000 := by rw [hone]; norm_num
      _ ≤ dtToMicros d - dtToMicros ⟨2019, 1, 1, 0, 0, 0, 0⟩ := h2
      _ ≤ |dtToMicros d - dtToMicros ⟨2019, 1, 1, 0, 0, 0, 0⟩| := le_abs_self _
  unfold find_closest_date
  rw [htarget]
  dsimp only
  rw [show dateRange2019 = (pdDateRange ⟨2019, 1, 2, 0, 0, 0, 0⟩ 364).map DateVal.dt from rfl]
  rw [hcons, List.map_cons]
  rw [hkd, List.map_cons]
  dsimp only
  rw [if_neg (show ¬(false = true) by decide)]
  rw [hmin]
  dsimp only
  decide

/-- The first letters of the known unit names. -/
def prefixChars : List Char := ['K', 'M', 'G', 'T', 'P', 'E', 'Z', 'Y']

theorem unit_heads_bin : ∀ u ∈ binaryUnits, u.data.headD ' ' ∈ prefixChars := by decide

theorem unit_heads_dec : ∀ u ∈ decimalUnits, u.data.headD ' ' ∈ prefixChars := by decide

/-- A string that str.split() does not cut into exactly two tokens makes the
tuple unpacking raise ValueError. -/
theorem parse_size_str_badsplit (size : String) (binary : Bool)
    (h : (pySplit size).length ≠ 2) :
    parse_size_str size binary = .error .valueError := by
  unfold parse_size_str
  rcases hl : pySplit size with _ | ⟨a, _ | ⟨b, _ | ⟨c, t⟩⟩⟩
  · rfl
  · rfl
  · rw [hl] at h
    simp at h
  · rfl

theorem matchedUnits_nil (units : List String) (c : Char)
    (hu : ∀ u ∈ units, u.data.headD ' ' ∈ prefixChars) (hc : c ∉ prefixChars) :
    matchedUnits units c = [] := by
  unfold matchedUnits
  rw [List.filter_eq_nil_iff]
  intro u hmem hbeq
  rw [beq_iff_eq] at hbeq
  exact hc (hbeq ▸ hu u hmem)

/-- A unit symbol whose first letter matches no unit prefix makes the [0]
indexing of the empty filtered list raise IndexError (a LookupError). -/
theorem parse_size_str_nomatch (size val sym : String) (binary : Bool)
    (hs : pySplit size = [val, sym])
    (hc : (sym.data.headD ' ').toUpper ∉ prefixChars) :
    parse_size_str size binary = .error .lookupError := by
  have hmb := matchedUnits_nil binaryUnits _ unit_heads_bin hc
  have hmd := matchedUnits_nil decimalUnits _ unit_heads_dec hc
  unfold parse_size_str
  rw [hs]
  dsimp only
  by_cases hib : hasIB sym = true
  · rw [if_pos hib]
    dsimp only
    rw [hmb]
  · rw [if_neg hib]
    by_cases hb : binary = true
    · rw [if_pos hb]
      dsimp only
      rw [hmb]
    · rw [if_neg hb]
      dsimp only
      rw [hmd]

theorem matched_facts_bin : ∀ c ∈ prefixChars,
    matchedUnits binaryUnits c ≠ [] ∧
    List.lookup ((matchedUnits binaryUnits c).headD "")
      (unitDict ((2 : ℚ) ^ 10) binaryUnits) ≠ none := by decide

theorem matched_facts_dec : ∀ c ∈ prefixChars,
    matchedUnits decimalUnits c ≠ [] ∧
    List.lookup ((matchedUnits decimalUnits c).headD "")
      (unitDict ((10 : ℚ) ^ 3) decimalUnits) ≠ none := by decide

/-- With two tokens and a recognised unit letter, a value that float() cannot
parse raises ValueError. -/
theorem parse_size_str_badval (size val sym : String) (binary : Bool)
    (hs : pySplit size = [val, sym])
    (hc : (sym.data.headD ' ').toUpper ∈ prefixChars)
    (hv : parseValChars val.data = none) :
    parse_size_str size binary = .error .valueError := by
  unfold parse_size_str
  rw [hs]
  dsimp only
  by_cases hib : hasIB sym = true
  · rw [if_pos hib]
    dsimp only
    obtain ⟨hne, hlk⟩ := matched_facts_bin _ hc
    obtain ⟨u, r, hur⟩ := List.exists_cons_of_ne_nil hne
    rw [hur] at hlk
    dsimp only [List.headD] at hlk
    rw [hur]
    dsimp only
    rcases ho : List.lookup u (unitDict ((2 : ℚ) ^ 10) binaryUnits) with _ | m
    · exact absurd ho hlk
    · dsimp only
      rw [hv]
  · rw [if_neg hib]
    by_cases hb : binary = true
    · rw [if_pos hb]
      dsimp only
      obtain ⟨hne, hlk⟩ := matched_facts_bin _ hc
      obtain ⟨u, r, hur⟩ := List.exists_cons_of_ne_nil hne
      rw [hur] at hlk
      dsimp only [List.headD] at hlk
      rw [hur]
      dsimp only
      rcases ho : List.lookup u (unitDict ((2 : ℚ) ^ 10) binaryUnits) with _ | m
      · exact absurd ho hlk
      · dsimp only
        rw [hv]
    · rw [if_neg hb]
      dsimp only
      obtain ⟨hne, hlk⟩ := matched_facts_dec _ hc
      obtain ⟨u, r, hur⟩ := List.exists_cons_of_ne_nil hne
      rw [hur] at hlk
      dsimp only [List.headD] at hlk
      rw [hur]
      dsimp only
      rcases ho : List.lookup u (unitDict ((10 : ℚ) ^ 3) decimalUnits) with _ | m
      · exact absurd ho hlk
      · dsimp only
        rw [hv]

/-- A unit symbol containing iB or ib selects the binary factor and units
regardless of the binary argument. -/
theorem parse_size_str_iB_override (s : String) (b : Bool) (v sym : String)
    (hs : pySplit s = [v, sym]) (hib : hasIB sym = true) :
    parse_size_str s b = parse_size_str s true := by
  unfold parse_size_str
  rw [hs]
  dsimp only
  rw [if_pos hib]
  rw [if_pos (show (true : Bool) = true from rfl)]
  rw [if_pos hib]

/-- The factor as an integer, for stating byte-count bounds. -/
def pyFactorZ (binary : Bool) : ℤ := if binary then 2 ^ 10 else 10 ^ 3

/-- The general shape of the numeric branch: with the magnitude of size
between consecutive powers of the factor, the result is the rendered
magnitude over factor to the k, the sign and the k-th unit. -/
theorem parse_size_num_spec (size : ℚ) (b : Bool) (p k : ℕ) (hk : k ≤ 8)
    (hlow : k = 0 ∨ pyFactor b ^ k ≤ |size|) (hhigh : |size| < pyFactor b ^ (k + 1)) :
    parse_size_num size b p =
      .inr (String.mk ((if decide (size < 0) then ['-'] else []) ++
        renderFixedChars (|size| / pyFactor b ^ k) p ++ ' ' :: ((allUnits b).getD k "").data)) := by
  unfold parse_size_num
  rw [formatLoop_spec (pyFactor b) (pyFactor_gt_one b) (decide (size < 0)) p k (allUnits b)
    |size| (abs_nonneg size) (by rw [allUnits_length]; omega) hlow hhigh]

theorem unit_facts_bin : ∀ k, k < 9 → 1 ≤ k →
    ((allUnits true).getD k "").data ≠ [] ∧
    (∀ c ∈ ((allUnits true).getD k "").data, c.isWhitespace = false) ∧
    hasIB ((allUnits true).getD k "") = true ∧
    matchedUnits binaryUnits ((((allUnits true).getD k "").data.headD ' ').toUpper) =
      [(allUnits true).getD k ""] ∧
    List.lookup ((allUnits true).getD k "") (unitDict ((2 : ℚ) ^ 10) binaryUnits) =
      some (((2 : ℚ) ^ 10) ^ k) := by decide

theorem unit_facts_dec : ∀ k, k < 9 → 1 ≤ k →
    ((allUnits false).getD k "").data ≠ [] ∧
    (∀ c ∈ ((allUnits false).getD k "").data, c.isWhitespace = false) ∧
    hasIB ((allUnits false).getD k "") = false ∧
    matchedUnits decimalUnits ((((allUnits false).getD k "").data.headD ' ').toUpper) =
      [(allUnits false).getD k ""] ∧
    List.lookup ((allUnits false).getD k "") (unitDict ((10 : ℚ) ^ 3) decimalUnits) =
      some (((10 : ℚ) ^ 3) ^ k) := by decide

/-- The error made by truncating the rounded mantissa times the factor back
to an integer. -/
theorem roundtrip_arith (nq F : ℚ) (p : ℕ) (hF : 0 < F) (hFle : F ≤ |nq|) (sgn : ℚ)
    (hs1 : sgn * |nq| = nq) (hs2 : sgn = 1 ∨ sgn = -1) :
    |((pyInt (sgn * ((roundHalfEven (|nq| / F * 10 ^ p) : ℤ) / 10 ^ p : ℚ) * F) : ℤ) : ℚ) - nq| ≤
      |nq| / (2 * 10 ^ p) + 1 := by
  set t : ℚ := |nq| / F with htdef
  set R : ℚ := ((roundHalfEven (t * 10 ^ p) : ℤ) : ℚ) with hRdef
  have hround : |R - t * 10 ^ p| ≤ 1 / 2 := abs_roundHalfEven_sub_le _
  have hp0 : (0 : ℚ) < 10 ^ p := by positivity
  have htF : t * F = |nq| := div_mul_cancel₀ _ (ne_of_gt hF)
  set w : ℚ := sgn * (R / 10 ^ p) * F with hwdef
  have hw_n : |w - nq| ≤ |nq| / (2 * 10 ^ p) := by
    have he1 : w - nq = sgn * (R / 10 ^ p * F - |nq|) := by
      rw [hwdef, mul_sub, hs1]
      ring
    have habs_s : |sgn| = 1 := by rcases hs2 with rfl | rfl <;> norm_num
    have he2 : R / 10 ^ p * F - |nq| = (R - t * 10 ^ p) * (F / 10 ^ p) := by
      rw [← htF]
      field_simp
      ring
    rw [he1, abs_mul, habs_s, one_mul, he2, abs_mul,
      abs_of_nonneg (show (0 : ℚ) ≤ F / 10 ^ p by positivity)]
    calc |R - t * 10 ^ p| * (F / 10 ^ p) ≤ 1 / 2 * (F / 10 ^ p) :=
          mul_le_mul_of_nonneg_right hround (by positivity)
      _ = F / (2 * 10 ^ p) := by ring
      _ ≤ |nq| / (2 * 10 ^ p) := by gcongr
  have hint : |((pyInt w : ℤ) : ℚ) - w| < 1 := abs_pyInt_sub_lt w
  calc |((pyInt w : ℤ) : ℚ) - nq| ≤ |((pyInt w : ℤ) : ℚ) - w| + |w - nq| :=
        abs_sub_le _ w nq
    _ ≤ |nq| / (2 * 10 ^ p) + 1 := by linarith

/-- Reduction of the string branch on a two-token split whose unit symbol is
the k-th entry of the unit list for the same binary flag. -/
theorem parse_size_str_unit (b : Bool) (k : ℕ) (hk1 : 1 ≤ k) (hk8 : k ≤ 8)
    (valStr : String) (v : ℚ) (hval : parseValChars valStr.data = some v)
    (s : String) (hsplit : pySplit s = [valStr, (allUnits b).getD k ""]) :
    parse_size_str s b = .ok (pyInt (v * pyFactor b ^ k)) := by
  cases b
  · obtain ⟨f1, f2, f3, f4, f5⟩ := unit_facts_dec k (by omega) hk1
    unfold parse_size_str
    rw [hsplit]
    dsimp only
    rw [if_neg (show ¬ hasIB ((allUnits false).getD k "") = true by rw [f3]; simp)]
    rw [if_neg (show ¬ (false : Bool) = true by simp)]
    dsimp only
    rw [f4]
    dsimp only
    rw [f5]
    dsimp only
    rw [hval]
    rfl
  · obtain ⟨f1, f2, f3, f4, f5⟩ := unit_facts_bin k (by omega) hk1
    unfold parse_size_str
    rw [hsplit]
    dsimp only
    rw [if_pos f3]
    dsimp only
    rw [f4]
    dsimp only
    rw [f5]
    dsimp only
    rw [hval]
    rfl

theorem unit_basic (b : Bool) (k : ℕ) (hk1 : 1 ≤ k) (hk8 : k ≤ 8) :
    ((allUnits b).getD k "").data ≠ [] ∧
    (∀ c ∈ ((allUnits b).getD k "").data, c.isWhitespace = false) := by
  cases b
  · exact ⟨(unit_facts_dec k (by omega) hk1).1, (unit_facts_dec k (by omega) hk1).2.1⟩
  · exact ⟨(unit_facts_bin k (by omega) hk1).1, (unit_facts_bin k (by omega) hk1).2.1⟩

/-- Round trip: formatting an integer byte count whose magnitude is at least
the factor and below the ninth power of the factor, then parsing the string
back with the same binary flag, recovers the original count up to half of
the rendered decimal precision scaled by the chosen unit, plus one byte from
the final truncation. -/
theorem parse_size_roundtrip (n : ℤ) (b : Bool) (p : ℕ)
    (h1 : pyFactorZ b ≤ |n|) (h2 : |n| < pyFactorZ b ^ 9) :
    ∃ s m, parse_size_num (n : ℚ) b p = .inr s ∧ parse_size_str s b = .ok m ∧
      |(m : ℚ) - (n : ℚ)| ≤ |(n : ℚ)| / (2 * 10 ^ p) + 1 := by
  have hfgt := pyFactor_gt_one b
  have hf0 : (0 : ℚ) < pyFactor b := lt_trans zero_lt_one hfgt
  set fn : ℕ := if b then 2 ^ 10 else 10 ^ 3 with hfndef
  have hfn1 : 1 < fn := by rw [hfndef]; cases b <;> norm_num
  have hfzfn : pyFactorZ b = (fn : ℤ) := by rw [hfndef]; cases b <;> simp [pyFactorZ]
  have hfqfn : pyFactor b = (fn : ℚ) := by
    rw [hfndef]; cases b <;> simp [pyFactor] <;> norm_num
  have habsz : |n| = (n.natAbs : ℤ) := Int.abs_eq_natAbs n
  have hn0 : n.natAbs ≠ 0 := by
    intro h
    rw [hfzfn, habsz, h] at h1
    simp at h1
    omega
  have hna : fn ≤ n.natAbs := by
    rw [hfzfn, habsz] at h1
    exact_mod_cast h1
  have hna9 : n.natAbs < fn ^ 9 := by
    rw [hfzfn, habsz] at h2
    exact_mod_cast h2
  set k : ℕ := Nat.log fn n.natAbs with hkdef
  have hklow : fn ^ k ≤ n.natAbs := Nat.pow_log_le_self fn hn0
  have hkhigh : n.natAbs < fn ^ (k + 1) := Nat.lt_pow_succ_log_self hfn1 n.natAbs
  have hk1 : 1 ≤ k := by
    rw [hkdef]
    exact (Nat.pow_le_iff_le_log hfn1 hn0).mp (by simpa using hna)
  have hk8 : k ≤ 8 := by
    have h9 : fn ^ k < fn ^ 9 := lt_of_le_of_lt hklow hna9
    have := (Nat.pow_lt_pow_iff_right hfn1).mp h9
    omega
  have habs : |(n : ℚ)| = (n.natAbs : ℚ) := by
    push_cast [Int.cast_natAbs]
    norm_num
  have hQlow : pyFactor b ^ k ≤ |(n : ℚ)| := by
    rw [hfqfn, habs]
    exact_mod_cast hklow
  have hQhigh : |(n : ℚ)| < pyFactor b ^ (k + 1) := by
    rw [hfqfn, habs]
    exact_mod_cast hkhigh
  have hFpos : (0 : ℚ) < pyFactor b ^ k := pow_pos hf0 k
  have hFle : pyFactor b ^ k ≤ |(n : ℚ)| := hQlow
  have hfmt := parse_size_num_spec (n : ℚ) b p k hk8 (Or.inr hQlow) hQhigh
  have ht0 : 0 ≤ |(n : ℚ)| / pyFactor b ^ k := div_nonneg (abs_nonneg _) (le_of_lt hFpos)
  obtain ⟨hudne, huws⟩ := unit_basic b k hk1 hk8
  -- the first token and its whitespace freedom
  have hvtws : ∀ c ∈ (if decide ((n : ℚ) < 0) then ['-'] else []) ++
      renderFixedChars (|(n : ℚ)| / pyFactor b ^ k) p, c.isWhitespace = false := by
    intro c hc
    rcases List.mem_append.mp hc with h | h
    · split_ifs at h
      · rcases List.mem_singleton.mp h with rfl
        decide
      · simp at h
    · exact renderFixedChars_not_ws _ p c h
  have hvtne : (if decide ((n : ℚ) < 0) then ['-'] else []) ++
      renderFixedChars (|(n : ℚ)| / pyFactor b ^ k) p ≠ [] := by
    intro hcon
    exact renderFixedChars_ne_nil (|(n : ℚ)| / pyFactor b ^ k) p
      (List.append_eq_nil.mp hcon).2
  have hsplit0 : pySplit (String.mk ((if decide ((n : ℚ) < 0) then ['-'] else []) ++
        renderFixedChars (|(n : ℚ)| / pyFactor b ^ k) p ++
        ' ' :: ((allUnits b).getD k "").data)) =
      [String.mk ((if decide ((n : ℚ) < 0) then ['-'] else []) ++
        renderFixedChars (|(n : ℚ)| / pyFactor b ^ k) p), (allUnits b).getD k ""] := by
    unfold pySplit
    rw [show (String.mk ((if decide ((n : ℚ) < 0) then ['-'] else []) ++
        renderFixedChars (|(n : ℚ)| / pyFactor b ^ k) p ++
        ' ' :: ((allUnits b).getD k "").data)).data =
      (if decide ((n : ℚ) < 0) then ['-'] else []) ++
        renderFixedChars (|(n : ℚ)| / pyFactor b ^ k) p ++
        ' ' :: ((allUnits b).getD k "").data from rfl]
    rw [wsSplit_pair _ _ hvtne hudne hvtws huws]
    rfl
  -- the parsed value of the first token
  rcases hneg : decide ((n : ℚ) < 0) with _ | _
  · -- nonnegative n
    have hsplit1 : pySplit (String.mk ([] ++
          renderFixedChars (|(n : ℚ)| / pyFactor b ^ k) p ++
          ' ' :: ((allUnits b).getD k "").data)) =
        [String.mk ([] ++ renderFixedChars (|(n : ℚ)| / pyFactor b ^ k) p),
          (allUnits b).getD k ""] := by
      rw [hneg] at hsplit0
      exact hsplit0
    have hval : parseValChars (String.mk ([] ++
        renderFixedChars (|(n : ℚ)| / pyFactor b ^ k) p)).data =
        some ((roundHalfEven (|(n : ℚ)| / pyFactor b ^ k * 10 ^ p) : ℤ) / 10 ^ p : ℚ) := by
      rw [show (String.mk ([] ++ renderFixedChars (|(n : ℚ)| / pyFactor b ^ k) p)).data =
        renderFixedChars (|(n : ℚ)| / pyFactor b ^ k) p from rfl]
      exact parseValChars_renderFixed _ ht0 p
    have hparse := parse_size_str_unit b k hk1 hk8 _ _ hval _ hsplit1
    refine ⟨_, _, by rw [hfmt, hneg]; rfl, hparse, ?_⟩
    have hnn : (0 : ℚ) ≤ (n : ℚ) := by
      have := of_decide_eq_false hneg
      linarith [not_lt.mp this]
    have harith := roundtrip_arith (n : ℚ) (pyFactor b ^ k) p hFpos hFle 1
      (by rw [one_mul, abs_of_nonneg hnn]) (Or.inl rfl)
    simpa [one_mul] using harith
  · -- negative n
    have hsplit1 : pySplit (String.mk (['-'] ++
          renderFixedChars (|(n : ℚ)| / pyFactor b ^ k) p ++
          ' ' :: ((allUnits b).getD k "").data)) =
        [String.mk (['-'] ++ renderFixedChars (|(n : ℚ)| / pyFactor b ^ k) p),
          (allUnits b).getD k ""] := by
      rw [hneg] at hsplit0
      exact hsplit0
    have hval : parseValChars (String.mk (['-'] ++
        renderFixedChars (|(n : ℚ)| / pyFactor b ^ k) p)).data =
        some (-((roundHalfEven (|(n : ℚ)| / pyFactor b ^ k * 10 ^ p) : ℤ) / 10 ^ p : ℚ)) := by
      rw [show (String.mk (['-'] ++ renderFixedChars (|(n : ℚ)| / pyFactor b ^ k) p)).data =
        '-' :: renderFixedChars (|(n : ℚ)| / pyFactor b ^ k) p from rfl]
      exact parseValChars_neg_renderFixed _ ht0 p
    have hparse := parse_size_str_unit b k hk1 hk8 _ _ hval _ hsplit1
    refine ⟨_, _, by rw [hfmt, hneg]; rfl, hparse, ?_⟩
    have hlt : (n : ℚ) < 0 := of_decide_eq_true hneg
    have harith := roundtrip_arith (n : ℚ) (pyFactor b ^ k) p hFpos hFle (-1)
      (by rw [neg_one_mul, abs_of_neg hlt]; ring) (Or.inr rfl)
    have heq : -((roundHalfEven (|(n : ℚ)| / pyFactor b ^ k * 10 ^ p) : ℤ) / 10 ^ p : ℚ) *
        pyFactor b ^ k =
        (-1 : ℚ) * ((roundHalfEven (|(n : ℚ)| / pyFactor b ^ k * 10 ^ p) : ℤ) / 10 ^ p : ℚ) *
        pyFactor b ^ k := by ring
    rw [heq]
    exact harith

theorem keyedDates_sound (t : PyDateTime) :
    ∀ (l : List DateVal) (pairs : List (DateVal × ℤ)), keyedDates t l = some pairs →
      (∀ pr ∈ pairs, pr.1 ∈ l ∧ ∃ dx, pdToDatetime pr.1 = some dx ∧
        pr.2 = |dtToMicros dx - dtToMicros t|) ∧
      (∀ x ∈ l, ∃ dx, pdToDatetime x = some dx ∧
        (x, |dtToMicros dx - dtToMicros t|) ∈ pairs) := by
  intro l
  induction l with
  | nil =>
      intro pairs hp
      have : pairs = [] := by
        simpa [keyedDates] using hp.symm
      subst this
      exact ⟨fun pr hpr => absurd hpr (by simp), fun x hx => absurd hx (by simp)⟩
  | cons x xs ih =>
      intro pairs hp
      rw [keyedDates] at hp
      rcases hx : pdToDatetime x with _ | dx
      · rw [hx] at hp
        simp at hp
      rcases hxs : keyedDates t xs with _ | ys
      · rw [hx, hxs] at hp
        simp at hp
      rw [hx, hxs] at hp
      have hpairs : pairs = (x, |dtToMicros dx - dtToMicros t|) :: ys := by
        simpa using hp.symm
      subst hpairs
      obtain ⟨ihA, ihB⟩ := ih ys hxs
      constructor
      · intro pr hpr
        rcases List.mem_cons.mp hpr with h | h
        · refine ⟨by rw [h]; exact List.mem_cons_self x xs, dx, ?_, ?_⟩
          · rw [h]; exact hx
          · rw [h]
        · obtain ⟨hmem, hdx⟩ := ihA pr h
          exact ⟨List.mem_cons_of_mem x hmem, hdx⟩
      · intro z hz
        rcases List.mem_cons.mp hz with h | h
        · exact ⟨dx, by rw [h]; exact hx, by rw [h]; exact List.mem_cons_self _ _⟩
        · obtain ⟨dz, hdz1, hdz2⟩ := ihB z h
          exact ⟨dz, hdz1, List.mem_cons_of_mem _ hdz2⟩

theorem find_closest_date_spec (date : DateVal) (lookup_dates : List DateVal)
    (as_datetime : Bool) (res : DateVal)
    (hres : find_closest_date date lookup_dates as_datetime = some res) :
    ∃ t, pdToDatetime date = some t ∧
      ∃ c ∈ lookup_dates, ∃ dc, pdToDatetime c = some dc ∧
        (∀ c2 ∈ lookup_dates, ∀ dc2, pdToDatetime c2 = some dc2 →
          |dtToMicros dc - dtToMicros t| ≤ |dtToMicros dc2 - dtToMicros t|) ∧
        ((as_datetime = true ∧ res = .dt dc) ∨
         (as_datetime = false ∧
           ((∃ d0, c = .dt d0 ∧ res = .str (strftimeDefault d0)) ∨
            (∃ s0, c = .str s0 ∧ res = .str s0)))) := by
  unfold find_closest_date at hres
  rcases ht : pdToDatetime date with _ | t
  · rw [ht] at hres
    simp at hres
  rw [ht] at hres
  dsimp only at hres
  rcases hkd : keyedDates t lookup_dates with _ | pairs
  · rw [hkd] at hres
    simp at hres
  rw [hkd] at hres
  rcases pairs with _ | ⟨q, qs⟩
  · simp at hres
  dsimp only at hres
  obtain ⟨hsound, hcompl⟩ := keyedDates_sound t lookup_dates (q :: qs) hkd
  have hmem := minByKey_mem qs q
  have hle := minByKey_le qs q
  obtain ⟨hc_mem, dc, hdc, hkey⟩ := hsound (minByKey q qs) hmem
  refine ⟨t, rfl, (minByKey q qs).1, hc_mem, dc, hdc, ?_, ?_⟩
  · intro c2 hc2 dc2 hdc2
    obtain ⟨dz, hdz1, hdz2⟩ := hcompl c2 hc2
    have hzz : dz = dc2 := by
      rw [hdz1] at hdc2
      exact Option.some.inj hdc2
    subst hzz
    have := hle (c2, |dtToMicros dz - dtToMicros t|) hdz2
    rw [hkey] at this
    exact this
  · cases as_datetime
    · right
      refine ⟨rfl, ?_⟩
      rw [if_neg (show ¬ (false : Bool) = true by simp)] at hres
      rcases hc1 : (minByKey q qs).1 with s0 | d0
      · rw [hc1] at hres
        dsimp only at hres
        right
        exact ⟨s0, rfl, by simpa using hres.symm⟩
      · rw [hc1] at hres
        dsimp only at hres
        left
        exact ⟨d0, rfl, by simpa using hres.symm⟩
    · left
      refine ⟨rfl, ?_⟩
      rw [if_pos (show (true : Bool) = true from rfl)] at hres
      rcases hc1 : (minByKey q qs).1 with s0 | d0
      · rw [hc1] at hres
        dsimp only at hres
        rw [hc1] at hdc
        simp only [pdToDatetime] at hdc
        rw [hdc] at hres
        simpa using hres.symm
      · rw [hc1] at hres
        dsimp only at hres
        rw [hc1] at hdc
        simp only [pdToDatetime] at hdc
        have hd : d0 = dc := Option.some.inj hdc
        rw [← hd]
        simpa using hres.symm

/-! Claim theorems. -/

/-- C1, counterexample. The claim says a decimal-style suffix such as MB
yields a 1000-based result for every value of the binary argument; at
'1 MB' with binary=True the code scales by 1024 squared and returns 1048576,
not the 1000-based 1000000. -/
theorem pyspec_C1_counterexample :
    parse_size_str "1 MB" true = .ok 1048576 ∧ (1048576 : ℤ) ≠ 1000 * 1000 := by
  constructor
  · decide
  · decide

/-- C1 (amended): the unit suffix overrides the binary argument only toward
binary: a suffix containing iB or ib makes the result identical to the
binary=True result for every binary argument; a decimal-style suffix is
1000-based when binary=False, while with binary=True it is still scaled by
1024 (as at '123.45 MB'). -/
theorem pyspec_C1 :
    (∀ (s : String) (b : Bool) (v sym : String), pySplit s = [v, sym] → hasIB sym = true →
      parse_size_str s b = parse_size_str s true) ∧
    parse_size_str "123.45 MiB" false = .ok 129446707 ∧
    parse_size_str "123.45 MB" false = .ok 123450000 ∧
    parse_size_str "123.45 MB" true = .ok 129446707 := by
  refine ⟨parse_size_str_iB_override, ?_, ?_, ?_⟩
  · decide
  · decide
  · decide

/-- C1 witness: the override applied at a concrete iB-suffixed input. -/
theorem pyspec_C1_witness :
    parse_size_str "123.45 MiB" false = parse_size_str "123.45 MiB" true :=
  pyspec_C1.1 "123.45 MiB" false "123.45" "MiB" (by decide) (by decide)

/-- C2, counterexample. A byte count below the factor formats with unit B,
whose letter matches no unit prefix, so parsing the formatted string back
raises a lookup error and the round trip fails. -/
theorem pyspec_C2_counterexample :
    parse_size_num (500 : ℚ) true 1 = .inr "500.0 B" ∧
    parse_size_str "500.0 B" true = .error .lookupError := by
  constructor
  · decide
  · decide

/-- C2 (amended): for an integer byte count n with factor ≤ |n| < factor^9,
formatting with parse_size and parsing the result back with the same binary
flag yields an integer within |n| / (2 * 10 ^ precision) + 1 of n, the
rounding tolerance implied by the precision. -/
theorem pyspec_C2 (n : ℤ) (b : Bool) (p : ℕ)
    (h1 : pyFactorZ b ≤ |n|) (h2 : |n| < pyFactorZ b ^ 9) :
    ∃ s m, parse_size_num (n : ℚ) b p = .inr s ∧ parse_size_str s b = .ok m ∧
      |(m : ℚ) - (n : ℚ)| ≤ |(n : ℚ)| / (2 * 10 ^ p) + 1 :=
  parse_size_roundtrip n b p h1 h2

/-- C2 witness: the round trip at 2048 bytes, binary, precision 1. -/
theorem pyspec_C2_witness :
    ∃ s m, parse_size_num ((2048 : ℤ) : ℚ) true 1 = .inr s ∧
      parse_size_str s true = .ok m ∧
      |(m : ℚ) - ((2048 : ℤ) : ℚ)| ≤ |((2048 : ℤ) : ℚ)| / (2 * 10 ^ 1) + 1 :=
  pyspec_C2 2048 true 1 (by decide) (by decide)

/-- C3, counterexample. The claim describes the result as a formatted string
for every numeric input, but at magnitude factor^9 the loop stops dividing
at the last unit and the numeric input itself is returned. -/
theorem pyspec_C3_counterexample :
    parse_size_num ((1024 : ℚ) ^ 9) true 1 = .inl ((1024 : ℚ) ^ 9) := by decide

/-- C3 (amended): for a numeric size whose magnitude lies below factor^(k+1)
with k at most 8 (and at least factor^k when k is positive), parse_size
returns the string made of the sign for negative input, the magnitude
divided k times by the factor rendered at the requested precision, and the
k-th unit suffix. -/
theorem pyspec_C3 (size : ℚ) (b : Bool) (p k : ℕ) (hk : k ≤ 8)
    (hlow : k = 0 ∨ pyFactor b ^ k ≤ |size|) (hhigh : |size| < pyFactor b ^ (k + 1)) :
    parse_size_num size b p =
      .inr (String.mk ((if decide (size < 0) then ['-'] else []) ++
        renderFixedChars (|size| / pyFactor b ^ k) p ++
        ' ' :: ((allUnits b).getD k "").data)) :=
  parse_size_num_spec size b p k hk hlow hhigh

/-- C3 witness: the formatted shape at -2048 bytes, binary, precision 1. -/
theorem pyspec_C3_witness :
    parse_size_num (-2048 : ℚ) true 1 =
      .inr (String.mk ((if decide ((-2048 : ℚ) < 0) then ['-'] else []) ++
        renderFixedChars (|(-2048 : ℚ)| / pyFactor true ^ 1) 1 ++
        ' ' :: ((allUnits true).getD 1 "").data)) :=
  pyspec_C3 (-2048) true 1 1 (by norm_num) (Or.inr (by decide)) (by decide)

/-- C4. With no chunk-size limit the function returns None; with a positive
limit it returns the ceiling of m over the limit when m exceeds the limit
and 1 otherwise, where m is the determined byte size converted to
(me/mi)gabytes as the code does (divided by factor squared and rounded to
one decimal); the returned count is always at least 1. -/
theorem pyspec_C4 :
    (∀ (n : ℕ) (b : Bool), get_number_of_chunks n none b = none) ∧
    (∀ (n : ℕ) (L : ℚ) (b : Bool), 0 < L →
      get_number_of_chunks n (some L) b =
        some (if pyRound1 ((n : ℚ) / (if b then (2 : ℚ) ^ 10 else 10 ^ 3) ^ 2) > L
          then ⌈pyRound1 ((n : ℚ) / (if b then (2 : ℚ) ^ 10 else 10 ^ 3) ^ 2) / L⌉ else 1) ∧
        ∀ r : ℤ, get_number_of_chunks n (some L) b = some r → 1 ≤ r) := by
  constructor
  · intro n b
    rfl
  · intro n L b hL
    have hne : L ≠ 0 := ne_of_gt hL
    constructor
    · unfold get_number_of_chunks
      dsimp only
      rw [if_pos hne]
      split_ifs <;> rfl
    · intro r hr
      unfold get_number_of_chunks at hr
      dsimp only at hr
      rw [if_pos hne] at hr
      by_cases hgt : pyRound1 ((n : ℚ) / (if b then (2 : ℚ) ^ 10 else 10 ^ 3) ^ 2) > L
      · rw [if_pos hgt] at hr
        have hpos : 0 < pyRound1 ((n : ℚ) / (if b then (2 : ℚ) ^ 10 else 10 ^ 3) ^ 2) / L :=
          div_pos (lt_trans hL hgt) hL
        have h1 := Int.ceil_pos.mpr hpos
        have hre : r = ⌈pyRound1 ((n : ℚ) / (if b then (2 : ℚ) ^ 10 else 10 ^ 3) ^ 2) / L⌉ :=
          (Option.some.inj hr).symm
        omega
      · rw [if_neg hgt] at hr
        have hre : r = 1 := (Option.some.inj hr).symm
        omega

/-- C4 witness: a 2 MiB object with limit 1 gives 2 chunks. -/
theorem pyspec_C4_witness : get_number_of_chunks (2 ^ 21) (some 1) true = some 2 := by
  have h := (pyspec_C4.2 (2 ^ 21) 1 true (by norm_num)).1
  rw [h]
  decide

/-- C5. For nonempty data, get_extreme_outlier_bounds returns
(max(0, Q1 - k * IQR), Q3 + k * IQR), and the lower bound is never
negative. -/
theorem pyspec_C5 (dat : List ℚ) (k : ℚ) (hne : dat ≠ []) :
    get_extreme_outlier_bounds dat k =
      (max 0 (percentile dat 25 - k * (percentile dat 75 - percentile dat 25)),
        percentile dat 75 + k * (percentile dat 75 - percentile dat 25)) ∧
    0 ≤ (get_extreme_outlier_bounds dat k).1 := by
  constructor
  · rfl
  · exact le_max_left _ _

/-- C5 witness: the bounds at a small concrete sample. -/
theorem pyspec_C5_witness :
    get_extreme_outlier_bounds [(1 : ℚ), 2, 3, 4] 2 =
      (max 0 (percentile [(1 : ℚ), 2, 3, 4] 25 -
        2 * (percentile [(1 : ℚ), 2, 3, 4] 75 - percentile [(1 : ℚ), 2, 3, 4] 25)),
        percentile [(1 : ℚ), 2, 3, 4] 75 +
        2 * (percentile [(1 : ℚ), 2, 3, 4] 75 - percentile [(1 : ℚ), 2, 3, 4] 25)) ∧
    0 ≤ (get_extreme_outlier_bounds [(1 : ℚ), 2, 3, 4] 2).1 :=
  pyspec_C5 [1, 2, 3, 4] 2 (by decide)

/-- C6. interquartile_range is the 75th percentile minus the 25th percentile
(linear interpolation), and on the list 0..99 it equals 49.5. -/
theorem pyspec_C6 :
    (∀ dat : List ℚ, interquartile_range dat = percentile dat 75 - percentile dat 25) ∧
    interquartile_range ((List.range 100).map (fun i => (i : ℚ))) = 49.5 := by
  constructor
  · intro dat
    rfl
  · decide

/-- C7. find_closest_date returns the conversion of a candidate minimising
the absolute time difference to the target (a datetime when as_datetime,
otherwise a string, formatted for datetime candidates); and on the
2019-01-02..2019-12-31 daily range with target 2019-01-01 it returns the
string 2019-01-02 00:00:00.000000. -/
theorem pyspec_C7 :
    (∀ (date : DateVal) (lookup_dates : List DateVal) (as_datetime : Bool) (res : DateVal),
      find_closest_date date lookup_dates as_datetime = some res →
      ∃ t, pdToDatetime date = some t ∧
        ∃ c ∈ lookup_dates, ∃ dc, pdToDatetime c = some dc ∧
          (∀ c2 ∈ lookup_dates, ∀ dc2, pdToDatetime c2 = some dc2 →
            |dtToMicros dc - dtToMicros t| ≤ |dtToMicros dc2 - dtToMicros t|) ∧
          ((as_datetime = true ∧ res = .dt dc) ∨
           (as_datetime = false ∧
             ((∃ d0, c = .dt d0 ∧ res = .str (strftimeDefault d0)) ∨
              (∃ s0, c = .str s0 ∧ res = .str s0))))) ∧
    find_closest_date (.str "2019-01-01") dateRange2019 false =
      some (.str "2019-01-02 00:00:00.000000") :=
  ⟨find_closest_date_spec, find_closest_example⟩

/-- C7 witness: the general statement applied to the concrete example. -/
theorem pyspec_C7_witness :
    ∃ t, pdToDatetime (DateVal.str "2019-01-01") = some t ∧
      ∃ c ∈ dateRange2019, ∃ dc, pdToDatetime c = some dc ∧
        (∀ c2 ∈ dateRange2019, ∀ dc2, pdToDatetime c2 = some dc2 →
          |dtToMicros dc - dtToMicros t| ≤ |dtToMicros dc2 - dtToMicros t|) ∧
        ((false = true ∧ DateVal.str "2019-01-02 00:00:00.000000" = .dt dc) ∨
         (false = false ∧
           ((∃ d0, c = .dt d0 ∧
              DateVal.str "2019-01-02 00:00:00.000000" = .str (strftimeDefault d0)) ∨
            (∃ s0, c = .str s0 ∧
              DateVal.str "2019-01-02 00:00:00.000000" = .str s0)))) :=
  pyspec_C7.1 (.str "2019-01-01") dateRange2019 false
    (.str "2019-01-02 00:00:00.000000") pyspec_C7.2

/-- C8. gps_time_to_utc adds the fixed 315964800-second offset between the
GPS epoch (1980-01-06) and the Unix epoch and converts the sum as a Unix
timestamp with no leap-second correction; GPS time 1271398985.7822514 maps
to UTC 2020-04-20 06:23:05.782251. -/
theorem pyspec_C8 :
    (∀ t : ℚ, gps_time_to_utc t = utcFromTimestamp (t + 315964800)) ∧
    gps_time_to_utc (12713989857822514 / 10 ^ 7) = ⟨2020, 4, 20, 6, 23, 5, 782251⟩ := by
  constructor
  · intro t
    unfold gps_time_to_utc
    rw [show gps_from_utc = 315964800 from by decide]
  · decide

/-- C9. parse_size propagates errors uncaught: a string that does not split
into two tokens raises a value error; two tokens whose unit symbol starts
with no known unit prefix raise a lookup error; two tokens with a
recognised unit letter but a value float() cannot parse raise a value
error. -/
theorem pyspec_C9 :
    (∀ (s : String) (b : Bool), (pySplit s).length ≠ 2 →
      parse_size_str s b = .error .valueError) ∧
    (∀ (s v sym : String) (b : Bool), pySplit s = [v, sym] →
      (sym.data.headD ' ').toUpper ∉ prefixChars →
      parse_size_str s b = .error .lookupError) ∧
    (∀ (s v sym : String) (b : Bool), pySplit s = [v, sym] →
      (sym.data.headD ' ').toUpper ∈ prefixChars →
      parseValChars v.data = none →
      parse_size_str s b = .error .valueError) :=
  ⟨fun s b h => parse_size_str_badsplit s b h,
   fun s v sym b hs hc => parse_size_str_nomatch s v sym b hs hc,
   fun s v sym b hs hc hv => parse_size_str_badval s v sym b hs hc hv⟩

/-- C9 witness: the three error modes at concrete inputs. -/
theorem pyspec_C9_witness :
    parse_size_str "123456" true = .error .valueError ∧
    parse_size_str "12 QB" true = .error .lookupError ∧
    parse_size_str "abc MB" true = .error .valueError :=
  ⟨pyspec_C9.1 "123456" true (by decide),
   pyspec_C9.2.1 "12 QB" "12" "QB" true (by decide) (by decide),
   pyspec_C9.2.2 "abc MB" "abc" "MB" true (by decide) (by decide) (by decide)⟩

/-- C10. For a numeric size of magnitude at least factor^9 the formatting
loop stops dividing at the last unit and never formats, so parse_size
returns the original numeric input unchanged. -/
theorem pyspec_C10 (size : ℚ) (b : Bool) (p : ℕ) (h : pyFactor b ^ 9 ≤ |size|) :
    parse_size_num size b p = .inl size :=
  parse_size_num_overflow size b p h

/-- C10 witness: a negative decimal-mode size beyond the last unit. -/
theorem pyspec_C10_witness :
    parse_size_num (-(1000 : ℚ) ^ 9 - 5) false 3 = .inl (-(1000 : ℚ) ^ 9 - 5) :=
  pyspec_C10 (-(1000 : ℚ) ^ 9 - 5) false 3 (by decide)

end Pyhelpers
